import Mathlib

/-!
# Incremental SSE consumer — verification development

This file embeds the incremental Server-Sent-Events consumption loop that
is duplicated across the four demo pages of the repository
(`frontend/app/demo/visual-pricing/page.tsx`, `market-trends/page.tsx`,
`launch-detector/page.tsx` and the crisis-detector page).  Two variants of
the loop occur in the source:

* the *market-trends style* loop (also used verbatim by the crisis-detector
  and launch-detector pages): `if (event.done) break; if (event.error)
  throw; if (event.agent && event.content) dispatch;` with an
  `AbortController`, an outer `catch` filtering `AbortError`, and a
  `finally` clearing the running flag and the active agent;
* the *visual-pricing* loop: `if (data.done) {{status complete}; continue}
  if (data.error) throw; if (data.agent) dispatch;` with an explicit
  error/status state and no abort handle.

Text is modelled as `List Char` (the JavaScript strings produced by
`TextDecoder.decode(value, {stream: true})`; the streaming decoder is a
platform API whose contract is that the concatenation of its outputs is the
decoding of the concatenated input bytes, so arbitrary byte chunkings of a
stream appear here as arbitrary `List Char` chunkings with the same
concatenation).  `JSON.parse` is likewise a platform API; it is abstracted
as a parameter `parse : List Char → Option StreamEvent`, `none` standing
for a `SyntaxError`.
-/

/-- `buffer.split("\n\n")` from the source loops, specialised to the
two-character record delimiter: left-to-right, non-overlapping, always
returning at least one fragment (`"".split` gives `[""]`). -/
def splitNN : List Char → List (List Char)
  | [] => [[]]
  | [c] => [[c]]
  | c₁ :: c₂ :: rest =>
    if c₁ = '\n' ∧ c₂ = '\n' then
      [] :: splitNN rest
    else
      (c₁ :: (splitNN (c₂ :: rest)).headI) :: (splitNN (c₂ :: rest)).tail

/-- Whether a text contains an occurrence of the record delimiter `"\n\n"`. -/
def containsNN : List Char → Bool
  | [] => false
  | [_] => false
  | c₁ :: c₂ :: rest => (c₁ == '\n' && c₂ == '\n') || containsNN (c₂ :: rest)

theorem splitNN_ne_nil (l : List Char) : splitNN l ≠ [] := by
  match l with
  | [] => simp [splitNN]
  | [c] => simp [splitNN]
  | c₁ :: c₂ :: rest =>
    rw [splitNN]
    split <;> simp

example : splitNN "a\n\nb\n\nc".toList = ["a".toList, "b".toList, "c".toList] := by decide
example : splitNN "".toList = [[]] := by decide
example : splitNN "\n\n".toList = [[], []] := by decide
example : splitNN "a\n\n\nb".toList = ["a".toList, "\nb".toList] := by decide
example : splitNN "a\n".toList = ["a\n".toList] := by decide
example : containsNN "a\n\nb".toList = true := by decide
example : containsNN "a\nb".toList = false := by decide

/-- A fragment list returned by `splitNN` on input starting with a
character other than a delimiter start keeps that character in front. -/
theorem splitNN_headI_of_ne (c : Char) (l : List Char) (hc : c ≠ '\n') :
    ∃ g, (splitNN (c :: l)).headI = c :: g := by
  match l with
  | [] => exact ⟨[], rfl⟩
  | d :: l' =>
    rw [splitNN]
    rw [if_neg (by simp [hc])]
    exact ⟨(splitNN (d :: l')).headI, rfl⟩

/-- Unfolding `splitNN` on a cons cell whose first two characters do not
form the delimiter. -/
theorem splitNN_cons_of_not_sep (c : Char) (l : List Char)
    (h : ¬(c = '\n' ∧ l.head? = some '\n')) :
    splitNN (c :: l) = (c :: (splitNN l).headI) :: (splitNN l).tail := by
  match l with
  | [] => simp [splitNN]
  | d :: l' =>
    rw [splitNN]
    rw [if_neg (by simpa using h)]

/-- A delimiter-free text is returned whole as the single fragment. -/
theorem splitNN_eq_self (l : List Char) (h : containsNN l = false) :
    splitNN l = [l] := by
  induction l using splitNN.induct with
  | case1 => rfl
  | case2 c => rfl
  | case3 c₁ c₂ rest hsep ih =>
    exfalso
    obtain ⟨h1, h2⟩ := hsep
    subst h1; subst h2
    simp [containsNN] at h
  | case4 c₁ c₂ rest hsep ih =>
    have h' : containsNN (c₂ :: rest) = false := by
      rw [containsNN] at h
      exact (Bool.or_eq_false_iff.mp h).2
    rw [splitNN, if_neg hsep, ih h']
    rfl

/-- Every fragment produced by `splitNN` is free of the record delimiter:
the split consumes every `"\n\n"` occurrence. -/
theorem containsNN_of_mem_splitNN (l : List Char) :
    ∀ f ∈ splitNN l, containsNN f = false := by
  induction l using splitNN.induct with
  | case1 => intro f hf; simp [splitNN] at hf; simp [hf, containsNN]
  | case2 c => intro f hf; simp [splitNN] at hf; simp [hf, containsNN]
  | case3 c₁ c₂ rest hsep ih =>
    intro f hf
    obtain ⟨h1, h2⟩ := hsep
    subst h1; subst h2
    rw [splitNN, if_pos ⟨rfl, rfl⟩] at hf
    rcases List.mem_cons.mp hf with h | h
    · simp [h, containsNN]
    · exact ih f h
  | case4 c₁ c₂ rest hsep ih =>
    intro f hf
    rw [splitNN, if_neg hsep] at hf
    obtain ⟨s, S', hS⟩ := List.exists_cons_of_ne_nil (splitNN_ne_nil (c₂ :: rest))
    rw [hS] at hf
    simp only [List.headI_cons, List.tail_cons] at hf
    rcases List.mem_cons.mp hf with h | h
    · -- `f = c₁ :: s` with `s` the first fragment of the tail split
      subst h
      have hs : containsNN s = false := ih s (by rw [hS]; exact List.mem_cons_self _ _)
      match s, hs with
      | [], _ => simp [containsNN]
      | d :: s', hs =>
        rw [containsNN, Bool.or_eq_false_iff]
        refine ⟨?_, hs⟩
        by_cases hc₁ : c₁ = '\n'
        · -- then `c₂ ≠ '\n'` and the fragment head is `c₂`
          have hc₂ : c₂ ≠ '\n' := fun hc₂ => hsep ⟨hc₁, hc₂⟩
          obtain ⟨g, hg⟩ := splitNN_headI_of_ne c₂ rest hc₂
          rw [hS, List.headI_cons] at hg
          injection hg with hd hg'
          simp [hd, hc₂]
        · simp [hc₁]
    · exact ih f (by rw [hS]; exact List.mem_cons_of_mem _ h)

/-- For a non-empty list, `getLastD` does not depend on the default. -/
theorem getLastD_irrel {α : Type} (l : List α) (a b : α) (h : l ≠ []) :
    l.getLastD a = l.getLastD b := by
  simp only [List.getLastD_eq_getLast?, List.getLast?_eq_getLast l h, Option.getD_some]

/-- Incrementality of the record split: splitting `x ++ y` is the same as
splitting `x`, keeping its complete fragments, and re-splitting the last
(incomplete) fragment of `x` glued to `y`.  This is the algebraic content
of the `buffer += decode(...); lines = buffer.split("\n\n"); buffer =
lines.pop() || ""` loop. -/
theorem splitNN_append (x y : List Char) :
    splitNN (x ++ y) =
      (splitNN x).dropLast ++ splitNN ((splitNN x).getLastD [] ++ y) := by
  induction x using splitNN.induct with
  | case1 => simp [splitNN]
  | case2 c => simp [splitNN]
  | case3 c₁ c₂ rest hsep ih =>
    obtain ⟨h1, h2⟩ := hsep
    subst h1; subst h2
    have hne := splitNN_ne_nil rest
    obtain ⟨s, S', hS⟩ := List.exists_cons_of_ne_nil hne
    rw [List.cons_append, List.cons_append, splitNN, if_pos ⟨rfl, rfl⟩,
      splitNN, if_pos ⟨rfl, rfl⟩, ih, hS]
    simp [List.getLastD_cons]
  | case4 c₁ c₂ rest hsep ih =>
    have hne := splitNN_ne_nil (c₂ :: rest)
    obtain ⟨s, S', hS⟩ := List.exists_cons_of_ne_nil hne
    have hx : splitNN (c₁ :: c₂ :: rest) = (c₁ :: s) :: S' := by
      rw [splitNN, if_neg hsep, hS]; rfl
    have hT : splitNN ((c₂ :: rest) ++ y) =
        (s :: S').dropLast ++ splitNN ((s :: S').getLastD [] ++ y) := by
      rw [ih, hS]
    have hguard2 : ¬(c₁ = '\n' ∧ (c₂ :: (rest ++ y)).head? = some '\n') := by
      rintro ⟨hc₁, hc₂⟩
      exact hsep ⟨hc₁, Option.some.inj (by simpa using hc₂)⟩
    simp only [List.cons_append] at hT ⊢
    rw [hx]
    cases S' with
    | nil =>
      have hguard : ¬(c₁ = '\n' ∧ (s ++ y).head? = some '\n') := by
        rintro ⟨hc₁, hhd⟩
        by_cases hc₂' : c₂ = '\n'
        · exact hsep ⟨hc₁, hc₂'⟩
        · obtain ⟨g, hg⟩ := splitNN_headI_of_ne c₂ rest hc₂'
          rw [hS, List.headI_cons] at hg
          rw [hg, List.cons_append, List.head?_cons] at hhd
          exact hc₂' (Option.some.inj hhd)
      rw [splitNN_cons_of_not_sep c₁ (c₂ :: (rest ++ y)) hguard2, hT]
      simp only [List.dropLast_single, List.nil_append, List.getLastD_cons,
        List.getLastD_nil, List.cons_append]
      rw [splitNN_cons_of_not_sep c₁ (s ++ y) hguard]
    | cons s₂ S'' =>
      rw [splitNN_cons_of_not_sep c₁ (c₂ :: (rest ++ y)) hguard2, hT]
      simp [List.getLastD_cons, List.dropLast_cons_of_ne_nil]

/-! ## Data model

`StreamEvent` mirrors the TypeScript interface of the same name
(`launch-detector/types.ts` and its per-page twins): every field optional.
`metadata` is an open mapping; only the four keys the pages read are
modelled, each with an opaque payload (the pages treat the payloads as
objects, so JavaScript truthiness of `metadata?.key` is presence). -/

structure Metadata where
  recommendation : Option String := none
  forecast : Option String := none
  market_data : Option String := none
  assessment : Option String := none
deriving DecidableEq

structure StreamEvent where
  agent : Option String := none
  thought_type : Option String := none
  content : Option String := none
  is_final : Option Bool := none
  metadata : Option Metadata := none
  done : Option Bool := none
  error : Option String := none
deriving DecidableEq

/-- JavaScript truthiness of an optional string field: present and
non-empty (`""` is falsy). -/
def truthyStr : Option String → Bool
  | none => false
  | some s => s != ""

/-- JavaScript truthiness of an optional boolean field. -/
def truthyBool : Option Bool → Bool
  | none => false
  | some b => b

/-- Truthiness of `event.metadata?.key` (optional chaining): the metadata
object is present and carries the key (payloads are objects, hence truthy
whenever present). -/
def metaHas (key : Metadata → Option String) : Option Metadata → Bool
  | none => false
  | some m => (key m).isSome

/-- `event.metadata?.key` as a value (`none` when absent). -/
def metaGet (key : Metadata → Option String) : Option Metadata → Option String
  | none => none
  | some m => key m

/-- `event.thought_type || undefined` from the dispatch sites: an empty
string is coerced to `undefined`. -/
def orUndefined : Option String → Option String
  | none => none
  | some s => if s = "" then none else some s

/-- One entry of the UI output log: `{agent, content, thoughtType}`
(interface `AgentOutput` in `market-trends/page.tsx` and the
crisis/launch pages). -/
structure AgentOutput where
  agent : String
  content : String
  thoughtType : Option String
deriving DecidableEq

/-- The record marker `"data: "` (6 characters, stripped by
`line.slice(6)`). -/
def dataMarker : List Char := "data: ".toList

/-! ## Market-trends-style consumer

Embeds `runAnalysis` of `market-trends/page.tsx` lines 59–153.  The
crisis-detector (`src/unnamed/part_001`) and launch-detector pages run the
same loop with the same `done`/`error`/dispatch order, differing only in
which metadata key they surface, so this model covers all three. -/

structure MState where
  outputs : List AgentOutput
  activeAgent : Option String
  forecast : Option String
  marketData : Option String
  isRunning : Bool
deriving DecidableEq

/-- Result of handling one complete record inside the `for` loop:
`cont` falls through to the next record, `brk` is the `break` on a `done`
event (it leaves the `for` loop only), `err` is the `throw new
Error(event.error)` that propagates out of both loops. -/
inductive MStep where
  | cont (st : MState)
  | brk (st : MState)
  | err (st : MState) (msg : String)
deriving DecidableEq

/-- The state carried by an `MStep`. -/
def MStep.state : MStep → MState
  | .cont st => st
  | .brk st => st
  | .err st _ => st

/-- One record of the market-trends loop body (lines 108–142):
skip non-`data: ` lines; `JSON.parse` failure (a `SyntaxError`) is caught,
logged to the console and skipped; `done` breaks (after surfacing
`metadata.market_data`); a truthy `error` throws; an event with truthy
`agent` and `content` is appended to the outputs and its agent marked
active; finally `metadata.forecast` is surfaced when present. -/
def processRecordM (parse : List Char → Option StreamEvent) (st : MState)
    (line : List Char) : MStep :=
  if dataMarker.isPrefixOf line then
    match parse (line.drop 6) with
    | none => .cont st
    | some ev =>
      if truthyBool ev.done then
        .brk (if metaHas Metadata.market_data ev.metadata then
                { st with marketData := metaGet Metadata.market_data ev.metadata }
              else st)
      else if truthyStr ev.error then
        .err st (ev.error.getD "")
      else
        let st1 :=
          if truthyStr ev.agent && truthyStr ev.content then
            { st with
                activeAgent := ev.agent,
                outputs := st.outputs ++
                  [⟨ev.agent.getD "", ev.content.getD "", orUndefined ev.thought_type⟩] }
          else st
        .cont (if metaHas Metadata.forecast ev.metadata then
                 { st1 with forecast := metaGet Metadata.forecast ev.metadata }
               else st1)
  else .cont st

/-- The `for (const line of lines)` loop: `brk` and `err` short-circuit the
remaining records of the batch. -/
def processLinesM (parse : List Char → Option StreamEvent) :
    MState → List (List Char) → MStep
  | st, [] => .cont st
  | st, r :: rs =>
    match processRecordM parse st r with
    | .cont st' => processLinesM parse st' rs
    | .brk st' => .brk st'
    | .err st' m => .err st' m

/-- The complete records of one iteration: `buffer.split("\n\n")` minus the
retained last fragment. -/
def extractRecords (buf chunk : List Char) : List (List Char) :=
  (splitNN (buf ++ chunk)).dropLast

/-- The retained leftover: `buffer = lines.pop() || ""`. -/
def newLeftover (buf chunk : List Char) : List Char :=
  (splitNN (buf ++ chunk)).getLastD []

/-- How the pending `reader.read()` resolves once the supplied chunks are
exhausted: natural EOF (`done: true`), or rejection with an `AbortError`
raised by the caller's `abortRef.current.abort()`. -/
inductive Terminal where
  | eof
  | aborted
deriving DecidableEq

/-- How the `while (true)` read loop terminates. -/
inductive MExit where
  | eofExit (st : MState)
  | abortExit (st : MState)
  | throwExit (st : MState) (msg : String)
deriving DecidableEq

/-- The read loop of `market-trends/page.tsx` lines 100–144: read a chunk,
append to the leftover buffer, split, retain the last fragment, process the
complete records; `break` from a `done` event leaves only the `for` loop,
so reading continues; a thrown error propagates out of the `while`. -/
def runMChunks (parse : List Char → Option StreamEvent) :
    MState → List Char → List (List Char) → Terminal → MExit
  | st, _, [], .eof => .eofExit st
  | st, _, [], .aborted => .abortExit st
  | st, buf, c :: cs, t =>
    match processLinesM parse st (extractRecords buf c) with
    | .cont st' => runMChunks parse st' (newLeftover buf c) cs t
    | .brk st' => runMChunks parse st' (newLeftover buf c) cs t
    | .err st' m => .throwExit st' m

/-- Observable outcome of one market-trends run.  `failure` records the
argument of the outer `catch`'s `console.error("Analysis failed:", e)`
(only reached when the exception is not an `AbortError`); `readEof` is
whether the response body was read to completion; `wasAborted` is whether
the run was terminated by the abort signal. -/
structure MRun where
  final : MState
  failure : Option String
  readEof : Bool
  wasAborted : Bool
deriving DecidableEq

/-- The resets at the start of `runAnalysis` (lines 60–63): running flag
set, outputs cleared, result slots cleared.  (The active agent is not
reset here; it was cleared by the previous run's `finally`.) -/
def resetM (st : MState) : MState :=
  { st with isRunning := true, outputs := [], forecast := none, marketData := none }

/-- The `finally` block (lines 149–152). -/
def finallyM (st : MState) : MState :=
  { st with isRunning := false, activeAgent := none }

/-- A whole market-trends-style run over the given decoded chunks:
`try { ...loop... } catch (e) { if (e.name !== "AbortError")
console.error(...) } finally { setIsRunning(false); setActiveAgent(null) }`. -/
def runMarket (parse : List Char → Option StreamEvent) (st0 : MState)
    (chunks : List (List Char)) (t : Terminal) : MRun :=
  match runMChunks parse (resetM st0) [] chunks t with
  | .eofExit st => ⟨finallyM st, none, true, false⟩
  | .abortExit st => ⟨finallyM st, none, false, true⟩
  | .throwExit st m => ⟨finallyM st, some m, false, false⟩

/-- Platform-level disposal of the connection: the stream is consumed when
the body was read to EOF, and the fetch is cancelled when the abort signal
fired.  The source contains no explicit `reader.releaseLock()` or
`reader.cancel()` call, so these are the only ways a run lets go of the
connection deterministically. -/
def MRun.released (r : MRun) : Bool :=
  r.readEof || r.wasAborted

/-! ## Visual-pricing consumer

Embeds `handleAnalyze` of `visual-pricing/page.tsx` lines 62–124.  The
differences from the market-trends loop: an explicit status/error state; a
`done` event sets the status to complete and `continue`s (it does not
break); dispatch is guarded by `data.agent` alone (no content check) and
appends the whole parsed event; the strategist's final message surfaces
`metadata.recommendation`; there is no `AbortController` and no `finally`. -/

inductive VStatus where
  | idle
  | analyzing
  | complete
  | err
deriving DecidableEq

structure VState where
  status : VStatus
  messages : List StreamEvent
  activeAgent : Option String
  recommendation : Option String
  errorMsg : Option String
deriving DecidableEq

/-- One record of the visual-pricing loop body (lines 76–114).  A thrown
`Error(data.error)` is modelled by the `Except` error branch (it is not a
`SyntaxError`, so the inner `catch` re-throws it).  The `Number(...)`
coercions applied to the recommendation payload are identity on the opaque
payload model. -/
def processRecordV (parse : List Char → Option StreamEvent) (st : VState)
    (line : List Char) : Except (VState × String) VState :=
  if dataMarker.isPrefixOf line then
    match parse (line.drop 6) with
    | none => .ok st
    | some ev =>
      if truthyBool ev.done then
        .ok { st with status := .complete, activeAgent := none }
      else if truthyStr ev.error then
        .error (st, ev.error.getD "")
      else if truthyStr ev.agent then
        let st1 := { st with activeAgent := ev.agent, messages := st.messages ++ [ev] }
        if ev.agent == some "strategist" && truthyBool ev.is_final &&
            metaHas Metadata.recommendation ev.metadata then
          .ok { st1 with recommendation := metaGet Metadata.recommendation ev.metadata }
        else .ok st1
      else .ok st
  else .ok st

/-- The `for (const line of lines)` loop of the visual-pricing page: only a
thrown error short-circuits (a `done` event continues). -/
def processRecordsV (parse : List Char → Option StreamEvent) :
    VState → List (List Char) → Except (VState × String) VState
  | st, [] => .ok st
  | st, r :: rs =>
    match processRecordV parse st r with
    | .ok st' => processRecordsV parse st' rs
    | .error e => .error e

/-- The state carried by a record-loop result. -/
def vStateOf : Except (VState × String) VState → VState
  | .ok st => st
  | .error (st, _) => st

/-- The visual-pricing read loop (lines 68–116). -/
def runVChunks (parse : List Char → Option StreamEvent) :
    VState → List Char → List (List Char) → Except (VState × String) VState
  | st, _, [] => .ok st
  | st, buf, c :: cs =>
    match processRecordsV parse st (extractRecords buf c) with
    | .ok st' => runVChunks parse st' (newLeftover buf c) cs
    | .error e => .error e

/-- The resets at the start of `handleAnalyze` (lines 38–42). -/
def resetV (st : VState) : VState :=
  { st with status := .analyzing, messages := [], activeAgent := none,
            recommendation := none, errorMsg := none }

/-- A whole visual-pricing run: after the loop, EOF sets the status to
complete (lines 118–119); a propagated `Error` reaches the outer `catch`
(lines 120–124), which surfaces `err.message` and sets the error status. -/
def runVisual (parse : List Char → Option StreamEvent) (st0 : VState)
    (chunks : List (List Char)) : VState :=
  match runVChunks parse (resetV st0) [] chunks with
  | .ok st => { st with status := .complete, activeAgent := none }
  | .error (st, m) => { st with errorMsg := some m, status := .err, activeAgent := none }

/-! ## A concrete JSON parser instance

`JSON.parse` is a platform builtin; the loop embeddings take it as a
parameter.  For concrete runs, `testParse` is the restriction of
`JSON.parse` to a handful of record bodies, mapping each JSON text to the
`StreamEvent` that `JSON.parse` produces on it and everything else to
`none` (a `SyntaxError`, which is what `"not-json"` raises). -/

def bodyDone : List Char := "\x7b\"done\": true\x7d".toList
def bodyBoom : List Char := "\x7b\"error\": \"boom\"\x7d".toList
def bodyAC : List Char := "\x7b\"agent\": \"a\", \"content\": \"b\"\x7d".toList
def bodyAgentOnly : List Char := "\x7b\"agent\": \"scanner\"\x7d".toList
def bodyEmptyContent : List Char := "\x7b\"agent\": \"a\", \"content\": \"\"\x7d".toList

def evDone : StreamEvent := { done := some true }
def evBoom : StreamEvent := { error := some "boom" }
def evAC : StreamEvent := { agent := some "a", content := some "b" }
def evAgentOnly : StreamEvent := { agent := some "scanner" }
def evEmptyContent : StreamEvent := { agent := some "a", content := some "" }

def testParse (body : List Char) : Option StreamEvent :=
  if body = bodyDone then some evDone
  else if body = bodyBoom then some evBoom
  else if body = bodyAC then some evAC
  else if body = bodyAgentOnly then some evAgentOnly
  else if body = bodyEmptyContent then some evEmptyContent
  else none

/-- A full SSE record wire text: `data: <body>\n\n`. -/
def wire (body : List Char) : List Char :=
  dataMarker ++ body ++ "\n\n".toList

def mInit : MState := ⟨[], none, none, none, false⟩
def vInit : VState := ⟨.idle, [], none, none, none⟩

example : runMarket testParse mInit [wire bodyAC] .eof =
    ⟨⟨[⟨"a", "b", none⟩], none, none, none, false⟩, none, true, false⟩ := by decide
example : (runVisual testParse vInit [wire bodyAC]).messages = [evAC] := by decide
example : (runMarket testParse mInit [wire bodyBoom] .eof).failure = some "boom" := by decide

/-! ## Record classification -/

/-- A complete record that the loop recognises as a terminal `done` event:
`data: `-prefixed, well-formed JSON, truthy `done`. -/
def isDoneRec (parse : List Char → Option StreamEvent) (line : List Char) : Bool :=
  dataMarker.isPrefixOf line &&
    match parse (line.drop 6) with
    | some ev => truthyBool ev.done
    | none => false

/-- A record the loop treats as a protocol-level error event: `data: `-
prefixed, well-formed JSON, `done` falsy, truthy `error` equal to `m`. -/
def isErrRec (parse : List Char → Option StreamEvent) (line : List Char)
    (m : String) : Bool :=
  dataMarker.isPrefixOf line &&
    match parse (line.drop 6) with
    | some ev => !truthyBool ev.done && truthyStr ev.error && ev.error == some m
    | none => false

theorem processRecordM_brk_of_isDoneRec (parse : List Char → Option StreamEvent)
    (st : MState) (r : List Char) (h : isDoneRec parse r = true) :
    ∃ st', processRecordM parse st r = .brk st' := by
  simp only [isDoneRec, Bool.and_eq_true] at h
  obtain ⟨h1, h2⟩ := h
  match hp : parse (r.drop 6) with
  | none => rw [hp] at h2; simp at h2
  | some ev =>
    rw [hp] at h2
    simp only at h2
    exact ⟨if metaHas Metadata.market_data ev.metadata then
             { st with marketData := metaGet Metadata.market_data ev.metadata }
           else st, by simp [processRecordM, h1, hp, h2]⟩

theorem processRecordM_err_of_isErrRec (parse : List Char → Option StreamEvent)
    (st : MState) (r : List Char) (m : String) (h : isErrRec parse r m = true) :
    processRecordM parse st r = .err st m := by
  simp only [isErrRec, Bool.and_eq_true] at h
  obtain ⟨h1, h2⟩ := h
  match hp : parse (r.drop 6) with
  | none => rw [hp] at h2; simp at h2
  | some ev =>
    rw [hp] at h2
    simp only [Bool.and_eq_true, Bool.not_eq_true', beq_iff_eq] at h2
    obtain ⟨⟨hd, he⟩, hm⟩ := h2
    have he' : m ≠ "" := by
      rw [hm] at he
      simpa [truthyStr] using he
    simp [processRecordM, h1, hp, hd, he, hm, truthyStr, he']

theorem processRecordV_err_of_isErrRec (parse : List Char → Option StreamEvent)
    (st : VState) (r : List Char) (m : String) (h : isErrRec parse r m = true) :
    processRecordV parse st r = .error (st, m) := by
  simp only [isErrRec, Bool.and_eq_true] at h
  obtain ⟨h1, h2⟩ := h
  match hp : parse (r.drop 6) with
  | none => rw [hp] at h2; simp at h2
  | some ev =>
    rw [hp] at h2
    simp only [Bool.and_eq_true, Bool.not_eq_true', beq_iff_eq] at h2
    obtain ⟨⟨hd, he⟩, hm⟩ := h2
    have he' : m ≠ "" := by
      rw [hm] at he
      simpa [truthyStr] using he
    simp [processRecordV, h1, hp, hd, he, hm, truthyStr, he']

/-! ## Loop-shape lemmas -/

theorem processLinesM_append (parse : List Char → Option StreamEvent)
    (st : MState) (l1 l2 : List (List Char)) :
    processLinesM parse st (l1 ++ l2) =
      match processLinesM parse st l1 with
      | .cont st' => processLinesM parse st' l2
      | .brk st' => .brk st'
      | .err st' m => .err st' m := by
  induction l1 generalizing st with
  | nil => simp [processLinesM]
  | cons r rs ih =>
    rw [List.cons_append, processLinesM, processLinesM]
    match processRecordM parse st r with
    | .cont st' => exact ih st'
    | .brk st' => rfl
    | .err st' m => rfl

theorem processRecordsV_append (parse : List Char → Option StreamEvent)
    (st : VState) (l1 l2 : List (List Char)) :
    processRecordsV parse st (l1 ++ l2) =
      match processRecordsV parse st l1 with
      | .ok st' => processRecordsV parse st' l2
      | .error e => .error e := by
  induction l1 generalizing st with
  | nil => simp [processRecordsV]
  | cons r rs ih =>
    rw [List.cons_append, processRecordsV, processRecordsV]
    match processRecordV parse st r with
    | .ok st' => exact ih st'
    | .error e => rfl

/-- A `brk` step comes only from a `done` record. -/
theorem isDoneRec_of_brk (parse : List Char → Option StreamEvent)
    (st st1 : MState) (r : List Char)
    (hr : processRecordM parse st r = .brk st1) : isDoneRec parse r = true := by
  by_cases hpre : dataMarker.isPrefixOf r
  · match hp : parse (r.drop 6) with
    | none => simp [processRecordM, hpre, hp] at hr
    | some ev =>
      by_cases hdd : truthyBool ev.done
      · simp [isDoneRec, hpre, hp, hdd]
      · by_cases he : truthyStr ev.error <;>
          simp [processRecordM, hpre, hp, hdd, he] at hr
  · simp [processRecordM, hpre] at hr

/-- Without a `done` record, the market-trends batch loop never `break`s. -/
theorem processLinesM_no_brk (parse : List Char → Option StreamEvent)
    (st : MState) (l : List (List Char))
    (h : ∀ r ∈ l, isDoneRec parse r = false) :
    ∀ st', processLinesM parse st l ≠ .brk st' := by
  induction l generalizing st with
  | nil => intro st' hc; exact MStep.noConfusion hc
  | cons r rs ih =>
    intro st' hc
    rw [processLinesM] at hc
    match hr : processRecordM parse st r with
    | .cont st1 =>
      rw [hr] at hc
      exact ih st1 (fun x hx => h x (List.mem_cons_of_mem _ hx)) st' hc
    | .brk st1 =>
      have hd := isDoneRec_of_brk parse st st1 r hr
      rw [h r (List.mem_cons_self _ _)] at hd
      exact Bool.noConfusion hd
    | .err st1 m =>
      rw [hr] at hc
      exact MStep.noConfusion hc

/-! ## Buffer canonicalization -/

theorem getLastD_mem_of_ne_nil {α : Type} (l : List α) (a : α) (h : l ≠ []) :
    l.getLastD a ∈ l := by
  rw [List.getLastD_eq_getLast?, List.getLast?_eq_getLast l h, Option.getD_some]
  exact List.getLast_mem h

/-- The leftover retained by `buffer = lines.pop() || ""` never contains the
record delimiter. -/
theorem containsNN_newLeftover (buf c : List Char) :
    containsNN (newLeftover buf c) = false :=
  containsNN_of_mem_splitNN (buf ++ c) _
    (getLastD_mem_of_ne_nil _ _ (splitNN_ne_nil _))

/-- One loop iteration advances through the records of the whole stream:
the complete records of `buf ++ chunk` followed by the records later
extracted from the leftover glued to the rest of the stream. -/
theorem records_step (buf c : List Char) (rest : List Char) :
    (splitNN (buf ++ (c ++ rest))).dropLast =
      extractRecords buf c ++ (splitNN (newLeftover buf c ++ rest)).dropLast := by
  rw [← List.append_assoc, splitNN_append (buf ++ c) rest]
  rw [List.dropLast_append_of_ne_nil _ (splitNN_ne_nil _)]
  rfl

theorem runVChunks_canonical (parse : List Char → Option StreamEvent)
    (st : VState) (buf : List Char) (cs : List (List Char))
    (hbuf : containsNN buf = false) :
    runVChunks parse st buf cs =
      processRecordsV parse st ((splitNN (buf ++ cs.flatten)).dropLast) := by
  induction cs generalizing st buf with
  | nil =>
    rw [List.flatten_nil, List.append_nil, splitNN_eq_self buf hbuf]
    rfl
  | cons c cs ih =>
    rw [List.flatten_cons, records_step buf c cs.flatten,
      processRecordsV_append, runVChunks]
    match processRecordsV parse st (extractRecords buf c) with
    | .ok st' => exact ih st' (newLeftover buf c) (containsNN_newLeftover buf c)
    | .error e => rfl

/-- Chunk-boundary independence of the visual-pricing run: only the
concatenation of the decoded chunks matters. -/
theorem runVisual_flatten (parse : List Char → Option StreamEvent)
    (st0 : VState) (cs : List (List Char)) :
    runVisual parse st0 cs = runVisual parse st0 [cs.flatten] := by
  unfold runVisual
  rw [runVChunks_canonical parse _ [] cs rfl,
    runVChunks_canonical parse _ [] [cs.flatten] rfl]
  simp

/-- The batch-insensitive form of the market-trends loop: process all
records in order with the `for`-loop semantics, then exit by the terminal.
It coincides with the chunked loop whenever no `done` record occurs. -/
def runMRecords (parse : List Char → Option StreamEvent) (st : MState)
    (l : List (List Char)) (t : Terminal) : MExit :=
  match processLinesM parse st l, t with
  | .cont st', .eof => .eofExit st'
  | .cont st', .aborted => .abortExit st'
  | .brk st', .eof => .eofExit st'
  | .brk st', .aborted => .abortExit st'
  | .err st' m, _ => .throwExit st' m

theorem runMChunks_canonical (parse : List Char → Option StreamEvent)
    (st : MState) (buf : List Char) (cs : List (List Char)) (t : Terminal)
    (hbuf : containsNN buf = false)
    (hnd : ∀ r ∈ (splitNN (buf ++ cs.flatten)).dropLast, isDoneRec parse r = false) :
    runMChunks parse st buf cs t =
      runMRecords parse st ((splitNN (buf ++ cs.flatten)).dropLast) t := by
  induction cs generalizing st buf with
  | nil =>
    rw [List.flatten_nil, List.append_nil, splitNN_eq_self buf hbuf]
    cases t <;> rfl
  | cons c cs ih =>
    rw [List.flatten_cons, records_step buf c cs.flatten] at hnd ⊢
    rw [runMChunks]
    have happ := processLinesM_append parse st (extractRecords buf c)
      ((splitNN (newLeftover buf c ++ cs.flatten)).dropLast)
    match hA : processLinesM parse st (extractRecords buf c) with
    | .cont st' =>
      rw [hA] at happ
      have h2 := ih st' (newLeftover buf c) (containsNN_newLeftover buf c)
        (fun r hr => hnd r (List.mem_append_right _ hr))
      unfold runMRecords
      rw [happ]
      exact h2
    | .brk st' =>
      exact absurd hA (processLinesM_no_brk parse st (extractRecords buf c)
        (fun r hr => hnd r (List.mem_append_left _ hr)) st')
    | .err st' m =>
      rw [hA] at happ
      unfold runMRecords
      rw [happ]

/-- Chunk-boundary independence of the market-trends run, on streams with
no `done` record among the complete records. -/
theorem runMarket_flatten_of_no_done (parse : List Char → Option StreamEvent)
    (st0 : MState) (cs : List (List Char)) (t : Terminal)
    (hnd : ∀ r ∈ (splitNN cs.flatten).dropLast, isDoneRec parse r = false) :
    runMarket parse st0 cs t = runMarket parse st0 [cs.flatten] t := by
  unfold runMarket
  rw [runMChunks_canonical parse _ [] cs t rfl (by simpa using hnd),
    runMChunks_canonical parse _ [] [cs.flatten] t rfl (by simpa using hnd)]
  simp

theorem processLinesM_cont_split (parse : List Char → Option StreamEvent)
    (st s1 : MState) (A B : List (List Char))
    (h : processLinesM parse st (A ++ B) = .cont s1) :
    ∃ s', processLinesM parse st A = .cont s' ∧ processLinesM parse s' B = .cont s1 := by
  rw [processLinesM_append] at h
  match hA : processLinesM parse st A with
  | .cont s' => rw [hA] at h; simp only at h; exact ⟨s', rfl, h⟩
  | .brk s' => rw [hA] at h; simp at h
  | .err s' m => rw [hA] at h; simp at h

/-- The first protocol-level error record terminates the chunked
market-trends read loop with a thrown exception carrying its message,
leaving the state reached after the preceding records. -/
theorem runMChunks_err (parse : List Char → Option StreamEvent)
    (l2 : List (List Char)) (e : List Char) (m : String)
    (he : isErrRec parse e m = true) :
    ∀ (cs : List (List Char)) (l1 : List (List Char)) (st s1 : MState)
      (buf : List Char) (t : Terminal),
      containsNN buf = false →
      (∀ r ∈ l1, isDoneRec parse r = false) →
      (splitNN (buf ++ cs.flatten)).dropLast = l1 ++ e :: l2 →
      processLinesM parse st l1 = .cont s1 →
      runMChunks parse st buf cs t = .throwExit s1 m := by
  intro cs
  induction cs with
  | nil =>
    intro l1 st s1 buf t hbuf hl1 hrecs hcont
    rw [List.flatten_nil, List.append_nil, splitNN_eq_self buf hbuf] at hrecs
    exact absurd hrecs.symm (List.append_ne_nil_of_right_ne_nil _ (by simp))
  | cons c cs' ih =>
    intro l1 st s1 buf t hbuf hl1 hrecs hcont
    rw [List.flatten_cons, records_step buf c cs'.flatten] at hrecs
    rw [runMChunks]
    rcases List.append_eq_append_iff.mp hrecs with ⟨a', ha1, ha2⟩ | ⟨c', hc1, hc2⟩
    · -- the whole batch lies inside `l1`
      rw [ha1] at hcont
      obtain ⟨s', hA, hB⟩ := processLinesM_cont_split parse st s1 _ _ hcont
      rw [hA]
      exact ih a' s' s1 (newLeftover buf c) t (containsNN_newLeftover buf c)
        (fun r hr => hl1 r (ha1 ▸ List.mem_append_right _ hr)) ha2 hB
    · -- the batch reaches the error record (or ends exactly at `l1`)
      match c', hc1, hc2 with
      | [], hc1, hc2 =>
        rw [List.append_nil] at hc1
        rw [hc1, hcont]
        exact ih [] s1 s1 (newLeftover buf c) t (containsNN_newLeftover buf c)
          (by simp) (by simpa using hc2.symm) rfl
      | e' :: l2a, hc1, hc2 =>
        have he' : e' = e := (List.cons.injEq .. ▸ hc2).1.symm
        subst he'
        have hl2 : l2 = l2a ++ (splitNN (newLeftover buf c ++ cs'.flatten)).dropLast :=
          (List.cons.injEq .. ▸ hc2).2
        rw [hc1, processLinesM_append, hcont]
        simp only
        rw [processLinesM]
        rw [processRecordM_err_of_isErrRec parse s1 e' m he]

/-! ## Claims -/

/-- **C10.** Implicit loop invariant: at the end of every iteration of the
read loop, the retained leftover buffer (`buffer = lines.pop() || ""`)
contains no occurrence of the record delimiter `"\n\n"`; every record
completed in the accumulated text is consumed in the iteration in which
its terminating delimiter arrives. -/
theorem claim_C10_leftover_delimiter_free (buf chunk : List Char) :
    containsNN (newLeftover buf chunk) = false :=
  containsNN_newLeftover buf chunk

/-- **C6.** A complete record that does not begin with `"data: "` is never
dispatched as an event, produces no error, and never causes the run to
fail: in both loop variants it leaves the state unchanged, and the
surrounding record sequence is processed as if the record were absent. -/
theorem claim_C6_non_data_record_ignored (parse : List Char → Option StreamEvent)
    (st : MState) (vst : VState) (r : List Char) (l1 l2 : List (List Char))
    (h : dataMarker.isPrefixOf r = false) :
    processRecordM parse st r = .cont st ∧
    processRecordV parse vst r = .ok vst ∧
    processLinesM parse st (l1 ++ r :: l2) = processLinesM parse st (l1 ++ l2) ∧
    processRecordsV parse vst (l1 ++ r :: l2) = processRecordsV parse vst (l1 ++ l2) := by
  have hM : ∀ s : MState, processRecordM parse s r = .cont s := fun s => by
    simp [processRecordM, h]
  have hV : ∀ s : VState, processRecordV parse s r = .ok s := fun s => by
    simp [processRecordV, h]
  refine ⟨hM st, hV vst, ?_, ?_⟩
  · rw [processLinesM_append, processLinesM_append]
    match processLinesM parse st l1 with
    | .cont s => simp only; rw [processLinesM, hM s]
    | .brk s => rfl
    | .err s m => rfl
  · rw [processRecordsV_append, processRecordsV_append]
    match processRecordsV parse vst l1 with
    | .ok s => simp only; rw [processRecordsV, hV s]
    | .error e => rfl

theorem claim_C6_witness :
    dataMarker.isPrefixOf ": keep-alive".toList = false ∧
    processRecordM testParse mInit ": keep-alive".toList = .cont mInit ∧
    processRecordV testParse vInit ": keep-alive".toList = .ok vInit :=
  ⟨by decide,
    (claim_C6_non_data_record_ignored testParse mInit vInit _ [] [] (by decide)).1,
    (claim_C6_non_data_record_ignored testParse mInit vInit ": keep-alive".toList
      [] [] (by decide)).2.1⟩

/-- **C4.** A `data: `-prefixed record whose JSON body fails to parse
(`JSON.parse` raises a `SyntaxError`, which the inner `catch` swallows)
yields no dispatched event, does not terminate the run, and every
subsequent record is processed exactly as if the malformed record were
absent.  (The `console.error` diagnostic is a log effect outside the
modelled state.) -/
theorem claim_C4_malformed_record_skipped (parse : List Char → Option StreamEvent)
    (st : MState) (vst : VState) (r : List Char) (l1 l2 : List (List Char))
    (hpre : dataMarker.isPrefixOf r = true)
    (hbad : parse (r.drop 6) = none) :
    processRecordM parse st r = .cont st ∧
    processRecordV parse vst r = .ok vst ∧
    processLinesM parse st (l1 ++ r :: l2) = processLinesM parse st (l1 ++ l2) ∧
    processRecordsV parse vst (l1 ++ r :: l2) = processRecordsV parse vst (l1 ++ l2) := by
  have hM : ∀ s : MState, processRecordM parse s r = .cont s := fun s => by
    simp [processRecordM, hpre, hbad]
  have hV : ∀ s : VState, processRecordV parse s r = .ok s := fun s => by
    simp [processRecordV, hpre, hbad]
  refine ⟨hM st, hV vst, ?_, ?_⟩
  · rw [processLinesM_append, processLinesM_append]
    match processLinesM parse st l1 with
    | .cont s => simp only; rw [processLinesM, hM s]
    | .brk s => rfl
    | .err s m => rfl
  · rw [processRecordsV_append, processRecordsV_append]
    match processRecordsV parse vst l1 with
    | .ok s => simp only; rw [processRecordsV, hV s]
    | .error e => rfl

theorem claim_C4_witness :
    dataMarker.isPrefixOf (dataMarker ++ "not-json".toList) = true ∧
    testParse ((dataMarker ++ "not-json".toList).drop 6) = none ∧
    processLinesM testParse mInit
        ([] ++ (dataMarker ++ "not-json".toList) :: [dataMarker ++ bodyAC]) =
      processLinesM testParse mInit ([] ++ [dataMarker ++ bodyAC]) :=
  ⟨by decide, by decide,
    (claim_C4_malformed_record_skipped testParse mInit vInit
      (dataMarker ++ "not-json".toList) [] [dataMarker ++ bodyAC]
      (by decide) (by decide)).2.2.1⟩

/-- **C2 (amended).** In the market-trends-style loops a `done` record
`break`s out of the `for` loop over the current batch of complete records:
no record after it *in the same batch* is processed.  (As stated the claim
fails: the `break` leaves only the inner loop, so records arriving in
later chunks are still dispatched — see the counterexample.) -/
theorem claim_C2_done_stops_batch (parse : List Char → Option StreamEvent)
    (st : MState) (l1 l2 : List (List Char)) (d : List Char)
    (hd : isDoneRec parse d = true) :
    processLinesM parse st (l1 ++ d :: l2) = processLinesM parse st (l1 ++ [d]) := by
  rw [processLinesM_append, processLinesM_append]
  match processLinesM parse st l1 with
  | .cont s =>
    simp only
    obtain ⟨s', hs'⟩ := processRecordM_brk_of_isDoneRec parse s d hd
    rw [processLinesM, processLinesM, hs']
  | .brk s => rfl
  | .err s m => rfl

theorem claim_C2_witness :
    isDoneRec testParse (dataMarker ++ bodyDone) = true ∧
    processLinesM testParse mInit
        ([dataMarker ++ bodyAC] ++ (dataMarker ++ bodyDone) :: [dataMarker ++ bodyBoom]) =
      processLinesM testParse mInit ([dataMarker ++ bodyAC] ++ [dataMarker ++ bodyDone]) :=
  ⟨by decide,
    claim_C2_done_stops_batch testParse mInit [dataMarker ++ bodyAC]
      [dataMarker ++ bodyBoom] (dataMarker ++ bodyDone) (by decide)⟩

/-- **C2 counterexample.** The first chunk's only record parses to a
`done` event, yet the record delivered in the following chunk is still
dispatched to the output accumulator: the claim that no later record from
the stream is dispatched after `done` is false. -/
theorem claim_C2_counterexample :
    isDoneRec testParse (dataMarker ++ bodyDone) = true ∧
    (runMarket testParse mInit [wire bodyDone, wire bodyAC] .eof).final.outputs =
      [⟨"a", "b", none⟩] := by decide

/-- **C7.** A run terminated by the caller's abort never reports a
failure: the outer `catch` distinguishes the abort by its `AbortError`
name and suppresses it, and the `finally` block clears the running flag
and the active-agent indicator, so the run ends in the silently-cancelled
state. -/
theorem claim_C7_cancellation_is_silent (parse : List Char → Option StreamEvent)
    (m0 : MState) (cs : List (List Char)) (t : Terminal)
    (h : (runMarket parse m0 cs t).wasAborted = true) :
    (runMarket parse m0 cs t).failure = none ∧
    (runMarket parse m0 cs t).final.isRunning = false ∧
    (runMarket parse m0 cs t).final.activeAgent = none := by
  unfold runMarket at h ⊢
  match hE : runMChunks parse (resetM m0) [] cs t with
  | .eofExit st => rw [hE] at h; simp at h
  | .abortExit st => exact ⟨rfl, rfl, rfl⟩
  | .throwExit st m => rw [hE] at h; simp at h

theorem claim_C7_witness :
    (runMarket testParse mInit [wire bodyAC] .aborted).wasAborted = true ∧
    (runMarket testParse mInit [wire bodyAC] .aborted).failure = none ∧
    (runMarket testParse mInit [wire bodyAC] .aborted).final.isRunning = false ∧
    (runMarket testParse mInit [wire bodyAC] .aborted).final.activeAgent = none := by
  have h := claim_C7_cancellation_is_silent testParse mInit [wire bodyAC] .aborted (by decide)
  exact ⟨by decide, h.1, h.2.1, h.2.2⟩

/-- With a natural-EOF terminal the read loop never reports an abort. -/
theorem runMChunks_eof_not_abort (parse : List Char → Option StreamEvent) :
    ∀ (cs : List (List Char)) (st : MState) (buf : List Char) (s : MState),
      runMChunks parse st buf cs .eof ≠ .abortExit s := by
  intro cs
  induction cs with
  | nil => intro st buf s hc; exact MExit.noConfusion hc
  | cons c cs' ih =>
    intro st buf s hc
    rw [runMChunks] at hc
    match hA : processLinesM parse st (extractRecords buf c) with
    | .cont st' =>
      rw [hA] at hc; simp only at hc
      exact ih st' (newLeftover buf c) s hc
    | .brk st' =>
      rw [hA] at hc; simp only at hc
      exact ih st' (newLeftover buf c) s hc
    | .err st' m =>
      rw [hA] at hc; simp at hc

/-- **C9 (amended).** Connection disposal per exit path: a run terminated
by the abort signal releases the connection (the signal cancels the
fetch), and a run that ends without a thrown error with a natural-EOF
terminal has read the body to completion; but a run ending in a thrown
error (a protocol-level `error` record) releases nothing — the source has
no explicit `reader.releaseLock()`/`cancel()` on any path, so the
connection is not deterministically released there.  (As stated the claim
is false — see the counterexample.) -/
theorem claim_C9_release_by_path (parse : List Char → Option StreamEvent)
    (m0 : MState) (cs : List (List Char)) :
    (∀ t, (runMarket parse m0 cs t).wasAborted = true →
       (runMarket parse m0 cs t).released = true) ∧
    ((runMarket parse m0 cs .eof).failure = none →
       (runMarket parse m0 cs .eof).released = true) ∧
    (∀ t m, (runMarket parse m0 cs t).failure = some m →
       (runMarket parse m0 cs t).released = false) := by
  refine ⟨?_, ?_, ?_⟩
  · intro t h
    unfold runMarket at h ⊢
    match hE : runMChunks parse (resetM m0) [] cs t with
    | .eofExit st => rfl
    | .abortExit st => rfl
    | .throwExit st m => rw [hE] at h; simp at h
  · intro h
    unfold runMarket at h ⊢
    match hE : runMChunks parse (resetM m0) [] cs .eof with
    | .eofExit st => rfl
    | .abortExit st => exact absurd hE (runMChunks_eof_not_abort parse cs _ [] st)
    | .throwExit st m => rw [hE] at h; simp at h
  · intro t m h
    unfold runMarket at h ⊢
    match hE : runMChunks parse (resetM m0) [] cs t with
    | .eofExit st => rw [hE] at h; simp at h
    | .abortExit st => rw [hE] at h; simp at h
    | .throwExit st m' => rfl

theorem claim_C9_witness :
    (runMarket testParse mInit [wire bodyAC] .aborted).released = true ∧
    (runMarket testParse mInit [wire bodyAC] .eof).released = true ∧
    (runMarket testParse mInit [wire bodyBoom] .eof).released = false := by
  refine ⟨(claim_C9_release_by_path testParse mInit [wire bodyAC]).1 .aborted (by decide),
    (claim_C9_release_by_path testParse mInit [wire bodyAC]).2.1 (by decide),
    (claim_C9_release_by_path testParse mInit [wire bodyBoom]).2.2 .eof "boom" (by decide)⟩

/-- **C9 counterexample.** A run terminated by a protocol-level error
record ends without reading the body to EOF and without the abort signal
having fired; since the code has no explicit release call on any path, the
connection is not released on this exit path, refuting the claim that
every exit path releases the reader. -/
theorem claim_C9_counterexample :
    (runMarket testParse mInit [wire bodyBoom, wire bodyAC] .eof).failure = some "boom" ∧
    (runMarket testParse mInit [wire bodyBoom, wire bodyAC] .eof).released = false := by
  decide

/-- **C3.** A well-formed record with a populated `error` field (and no
`done` flag), reached after records none of which is terminal, ends the
run in the failed state carrying that record's literal error message, and
no record after it is dispatched.  In the visual-pricing page the failed
state is `status = "error"` with the surfaced `error` message; in the
market-trends-style pages the thrown `Error` reaches the outer `catch`,
whose non-abort branch surfaces the message, and the `finally` clears the
transient markers — in both, the final state past the error record is
exactly the state reached after the preceding records. -/
theorem claim_C3_error_record_ends_run (parse : List Char → Option StreamEvent)
    (st0 : VState) (m0 : MState) (cs : List (List Char))
    (l1 l2 : List (List Char)) (e : List Char) (m : String)
    (st1 : VState) (s1 : MState) (t : Terminal)
    (hrecs : (splitNN cs.flatten).dropLast = l1 ++ e :: l2)
    (he : isErrRec parse e m = true)
    (hnd : ∀ r ∈ l1, isDoneRec parse r = false)
    (hV : processRecordsV parse (resetV st0) l1 = .ok st1)
    (hM : processLinesM parse (resetM m0) l1 = .cont s1) :
    runVisual parse st0 cs =
      { st1 with errorMsg := some m, status := .err, activeAgent := none } ∧
    runMarket parse m0 cs t = ⟨finallyM s1, some m, false, false⟩ := by
  constructor
  · unfold runVisual
    rw [runVChunks_canonical parse _ [] cs rfl]
    rw [List.nil_append, hrecs, processRecordsV_append, hV]
    simp only
    rw [processRecordsV, processRecordV_err_of_isErrRec parse st1 e m he]
  · unfold runMarket
    rw [runMChunks_err parse l2 e m he cs l1 (resetM m0) s1 [] t rfl hnd
      (by simpa using hrecs) hM]

theorem claim_C3_witness :
    runVisual testParse vInit [wire bodyBoom] =
      { resetV vInit with errorMsg := some "boom", status := .err, activeAgent := none } ∧
    runMarket testParse mInit [wire bodyBoom] .eof =
      ⟨finallyM (resetM mInit), some "boom", false, false⟩ :=
  claim_C3_error_record_ends_run testParse vInit mInit [wire bodyBoom] [] []
    (dataMarker ++ bodyBoom) "boom" (resetV vInit) (resetM mInit) .eof
    (by decide) (by decide) (by simp) rfl rfl

/-- Each record handled by the market-trends loop only ever appends to the
output log. -/
theorem processRecordM_outputs_extend (parse : List Char → Option StreamEvent)
    (st : MState) (r : List Char) :
    st.outputs <+: (processRecordM parse st r).state.outputs := by
  unfold processRecordM
  by_cases hpre : dataMarker.isPrefixOf r
  · simp only [hpre, if_true]
    match parse (r.drop 6) with
    | none => exact List.prefix_rfl
    | some ev =>
      simp only
      split_ifs <;> simp [MStep.state]
  · simp only [hpre, if_false]
    exact List.prefix_rfl

theorem processLinesM_outputs_extend (parse : List Char → Option StreamEvent)
    (st : MState) (l : List (List Char)) :
    st.outputs <+: (processLinesM parse st l).state.outputs := by
  induction l generalizing st with
  | nil => exact List.prefix_rfl
  | cons r rs ih =>
    rw [processLinesM]
    match hr : processRecordM parse st r with
    | .cont st' =>
      have h1 := processRecordM_outputs_extend parse st r
      rw [hr] at h1
      exact h1.trans (ih st')
    | .brk st' =>
      have h1 := processRecordM_outputs_extend parse st r
      rw [hr] at h1
      exact h1
    | .err st' m =>
      have h1 := processRecordM_outputs_extend parse st r
      rw [hr] at h1
      exact h1

/-- Each record handled by the visual-pricing loop only ever appends to
the message log. -/
theorem processRecordV_messages_extend (parse : List Char → Option StreamEvent)
    (st : VState) (r : List Char) :
    st.messages <+: (vStateOf (processRecordV parse st r)).messages := by
  unfold processRecordV
  by_cases hpre : dataMarker.isPrefixOf r
  · simp only [hpre, if_true]
    match parse (r.drop 6) with
    | none => exact List.prefix_rfl
    | some ev =>
      simp only
      split_ifs <;> simp [vStateOf]
  · simp only [hpre, if_false]
    exact List.prefix_rfl

/-- **C8.** The UI-facing output accumulator is cleared at the start of
every run (`setOutputs([])` / `setMessages([])`), and during a run each
processing step only extends it by appending at the end, so every earlier
accumulator state is a prefix of every later one. -/
theorem claim_C8_accumulator_append_only (parse : List Char → Option StreamEvent) :
    (∀ st0 : MState, (resetM st0).outputs = []) ∧
    (∀ st0 : VState, (resetV st0).messages = []) ∧
    (∀ (st : MState) (r : List Char),
       st.outputs <+: (processRecordM parse st r).state.outputs) ∧
    (∀ (st : MState) (l : List (List Char)),
       st.outputs <+: (processLinesM parse st l).state.outputs) ∧
    (∀ (st : VState) (r : List Char),
       st.messages <+: (vStateOf (processRecordV parse st r)).messages) :=
  ⟨fun _ => rfl, fun _ => rfl,
    processRecordM_outputs_extend parse,
    processLinesM_outputs_extend parse,
    processRecordV_messages_extend parse⟩

/-- **C5 (amended).** Dispatch of a non-terminal event follows JavaScript
truthiness, and differs between the two loop variants: the market-trends
style loop (`if (event.agent && event.content)`) appends to the output log
and marks the agent active exactly when both `agent` and `content` are
present *and non-empty* (an event carrying `content: ""` is not
dispatched); the visual-pricing loop (`if (data.agent)`) appends the event
and marks the agent active exactly when `agent` is present and non-empty,
regardless of `content`.  (As stated — dispatch iff both fields are
carried — the claim fails on both variants; see the counterexample.) -/
theorem claim_C5_dispatch_condition (parse : List Char → Option StreamEvent)
    (st : MState) (vst : VState) (r : List Char) (ev : StreamEvent)
    (hpre : dataMarker.isPrefixOf r = true)
    (hp : parse (r.drop 6) = some ev)
    (hdone : truthyBool ev.done = false)
    (herr : truthyStr ev.error = false) :
    ((processRecordM parse st r).state.outputs =
        st.outputs ++
          (if truthyStr ev.agent && truthyStr ev.content then
            [⟨ev.agent.getD "", ev.content.getD "", orUndefined ev.thought_type⟩]
          else []) ∧
      (processRecordM parse st r).state.activeAgent =
        (if truthyStr ev.agent && truthyStr ev.content then ev.agent
         else st.activeAgent)) ∧
    ((vStateOf (processRecordV parse vst r)).messages =
        vst.messages ++ (if truthyStr ev.agent then [ev] else []) ∧
      (vStateOf (processRecordV parse vst r)).activeAgent =
        (if truthyStr ev.agent then ev.agent else vst.activeAgent)) := by
  constructor
  · unfold processRecordM
    rw [if_pos hpre, hp]
    simp only
    rw [if_neg (by simp [hdone]), if_neg (by simp [herr])]
    by_cases hac : truthyStr ev.agent && truthyStr ev.content
    · rw [if_pos hac]
      by_cases hf : metaHas Metadata.forecast ev.metadata
      · rw [if_pos hf]; simp [MStep.state, hac]
      · rw [if_neg hf]; simp [MStep.state, hac]
    · rw [if_neg hac]
      by_cases hf : metaHas Metadata.forecast ev.metadata
      · rw [if_pos hf]; simp [MStep.state, hac]
      · rw [if_neg hf]; simp [MStep.state, hac]
  · unfold processRecordV
    rw [if_pos hpre, hp]
    simp only
    rw [if_neg (by simp [hdone]), if_neg (by simp [herr])]
    by_cases ha : truthyStr ev.agent
    · rw [if_pos ha]
      by_cases hrec : (ev.agent == some "strategist" && truthyBool ev.is_final &&
          metaHas Metadata.recommendation ev.metadata) = true
      · rw [if_pos hrec]; simp [vStateOf, ha]
      · rw [if_neg hrec]; simp [vStateOf, ha]
    · rw [if_neg ha]; simp [vStateOf, ha]

theorem claim_C5_witness :
    (processRecordM testParse mInit (dataMarker ++ bodyAC)).state.outputs =
      [⟨"a", "b", none⟩] ∧
    (vStateOf (processRecordV testParse vInit (dataMarker ++ bodyAC))).messages =
      [evAC] := by
  have h := claim_C5_dispatch_condition testParse mInit vInit (dataMarker ++ bodyAC)
    evAC (by decide) (by decide) (by decide) (by decide)
  refine ⟨?_, ?_⟩
  · rw [h.1.1]; decide
  · rw [h.2.1]; decide

/-- **C5 counterexample.** The visual-pricing loop dispatches an event
that carries an `agent` but no `content` field at all, and the
market-trends loop refuses an event that carries both fields when the
content is the empty string — both directions of the claimed iff fail. -/
theorem claim_C5_counterexample :
    evAgentOnly.content = none ∧
    (runVisual testParse vInit [wire bodyAgentOnly]).messages = [evAgentOnly] ∧
    evEmptyContent.agent.isSome = true ∧ evEmptyContent.content.isSome = true ∧
    (runMarket testParse mInit [wire bodyEmptyContent] .eof).final.outputs = [] := by
  decide

/-- **C1 (amended).** Chunk-boundary independence.  For the visual-pricing
loop it holds unconditionally: any splitting of the decoded text into
chunks (in particular any byte-chunk splitting, including mid-record and —
through the streaming `TextDecoder` contract — mid-UTF-8-sequence)
produces the same result as delivering the whole stream as one chunk.
For the market-trends-style loops it holds provided no complete record
parses to a `done` event: a `done` record only `break`s the current batch,
so records that arrive in later chunks are still processed, and chunk
boundaries become observable (see the counterexample). -/
theorem claim_C1_chunk_boundary_independence :
    (∀ (parse : List Char → Option StreamEvent) (st0 : VState)
       (cs : List (List Char)),
       runVisual parse st0 cs = runVisual parse st0 [cs.flatten]) ∧
    (∀ (parse : List Char → Option StreamEvent) (st0 : MState)
       (cs : List (List Char)) (t : Terminal),
       (∀ r ∈ (splitNN cs.flatten).dropLast, isDoneRec parse r = false) →
       runMarket parse st0 cs t = runMarket parse st0 [cs.flatten] t) :=
  ⟨runVisual_flatten, runMarket_flatten_of_no_done⟩

theorem claim_C1_witness :
    (runVisual testParse vInit ["data: ".toList, bodyAC ++ "\n\n".toList] =
      runVisual testParse vInit [wire bodyAC]) ∧
    (runMarket testParse mInit ["data: ".toList, bodyAC ++ "\n\n".toList] .eof =
      runMarket testParse mInit [wire bodyAC] .eof) :=
  ⟨(claim_C1_chunk_boundary_independence.1 testParse vInit
      ["data: ".toList, bodyAC ++ "\n\n".toList]).trans (by decide),
   (claim_C1_chunk_boundary_independence.2 testParse mInit
      ["data: ".toList, bodyAC ++ "\n\n".toList] .eof (by decide)).trans (by decide)⟩

/-- **C1 counterexample.** The same byte stream — a `done` record followed
by an agent/content record — dispatches nothing when delivered as a single
chunk, but dispatches the second record when the records arrive in two
separate chunks: the parsed/dispatched event sequence depends on the
chunking. -/
theorem claim_C1_counterexample :
    (wire bodyDone ++ wire bodyAC = List.flatten [wire bodyDone, wire bodyAC]) ∧
    (runMarket testParse mInit [wire bodyDone ++ wire bodyAC] .eof).final.outputs = [] ∧
    (runMarket testParse mInit [wire bodyDone, wire bodyAC] .eof).final.outputs =
      [⟨"a", "b", none⟩] := by
  decide
